import Mathlib

/-!
Verification of the fixedrec repository (fixed-length record to delimited
text converter) against its natural-language specification.

The source files are src/fixedrec/parser.py (comment stripping, layout
parsing) and src/fixedrec/cli.py (byte-spec resolution, visualization,
layout selection, the transcode loop).  Python strings are modelled as
List Char, byte strings as List Nat (each element a byte value below 256,
as read from a file), and raising an exception is modelled with Except.
-/

namespace Fixedrec

/-- Bytes of an ASCII Lean string, used to write concrete byte sequences. -/
def strBytes (s : String) : List Nat := s.toList.map Char.toNat

/-- ASCII whitespace as recognised by the re module with re.ASCII. -/
def isAsciiWs (c : Char) : Bool :=
  c = ' ' || c = '\t' || c = '\n' || c = '\r' || c = '\x0b' || c = '\x0c'

/-- ASCII lower-casing of one character, the effect of str.lower on ASCII. -/
def pyLower (c : Char) : Char :=
  if 65 ≤ c.toNat ∧ c.toNat ≤ 90 then Char.ofNat (c.toNat + 32) else c

/-- ASCII word character, the class backslash-w under re.ASCII. -/
def isWordChar (c : Char) : Bool :=
  (65 ≤ c.toNat && c.toNat ≤ 90) || (97 ≤ c.toNat && c.toNat ≤ 122) ||
  (48 ≤ c.toNat && c.toNat ≤ 57) || c = '_'

/-- ASCII letter or underscore, the first character of an identifier. -/
def isIdentStart (c : Char) : Bool :=
  (65 ≤ c.toNat && c.toNat ≤ 90) || (97 ≤ c.toNat && c.toNat ≤ 122) || c = '_'

/-- ASCII decimal digit. -/
def isDigitChar (c : Char) : Bool := 48 ≤ c.toNat && c.toNat ≤ 57

/-- Python str.join over a list of pieces with a separator. -/
def joinSep (sep : List α) : List (List α) → List α
  | [] => []
  | [x] => x
  | x :: y :: xs => x ++ sep ++ joinSep sep (y :: xs)

/-- Membership in a joined list comes from the separator or from a piece. -/
theorem mem_joinSep {sep : List α} {L : List (List α)} {c : α}
    (h : c ∈ joinSep sep L) : c ∈ sep ∨ ∃ l ∈ L, c ∈ l := by
  induction L with
  | nil => simp [joinSep] at h
  | cons x xs ih =>
    cases xs with
    | nil =>
      simp only [joinSep] at h
      exact Or.inr ⟨x, by simp, h⟩
    | cons y ys =>
      simp only [joinSep, List.mem_append] at h
      rcases h with (h | h) | h
      · exact Or.inr ⟨x, by simp, h⟩
      · exact Or.inl h
      · rcases ih h with h | ⟨l, hl, hc⟩
        · exact Or.inl h
        · exact Or.inr ⟨l, by simp [hl], hc⟩

/-- Whether an Except value is an error. -/
def isErr : Except ε α → Bool
  | .error _ => true
  | .ok _ => false

/-! ## Comment stripper (parser.py, strip_block_and_line_comments)

The Python code first removes non-greedy block comments by a single
re.sub pass over the whole text, then cuts every line at its first
double slash and joins the lines back with a newline. -/

/-- Suffix of the input after the first star-slash pair, if any.
This is where the lazy regex body of a block comment ends. -/
def dropStarSlash : List Char → Option (List Char)
  | [] => none
  | [_] => none
  | c :: d :: rest =>
    if c = '*' && d = '/' then some rest else dropStarSlash (d :: rest)

theorem dropStarSlash_length :
    ∀ {l rest : List Char}, dropStarSlash l = some rest →
      rest.length + 2 ≤ l.length
  | [], _, h => by simp [dropStarSlash] at h
  | [_], _, h => by simp [dropStarSlash] at h
  | c :: d :: l, rest, h => by
    by_cases hc : c = '*' && d = '/'
    · simp only [dropStarSlash, hc, if_pos] at h
      cases h; simp
    · simp only [dropStarSlash, hc, if_neg, Bool.false_eq_true] at h
      have := dropStarSlash_length h
      simp only [List.length_cons] at this ⊢
      omega

/-- One re.sub pass removing lazy block comments, fuel-driven so that it
computes by kernel reduction.  At each position a match starts only on a
slash-star whose remainder holds a star-slash pair; otherwise the scan
advances one character, exactly as the regex engine does. -/
def stripBlockGo : Nat → List Char → List Char
  | 0, l => l
  | _ + 1, [] => []
  | _ + 1, [c] => [c]
  | n + 1, c :: d :: rest =>
    if c = '/' && d = '*' then
      match dropStarSlash rest with
      | some rest' => stripBlockGo n rest'
      | none => c :: stripBlockGo n (d :: rest)
    else
      c :: stripBlockGo n (d :: rest)

/-- Block-comment removal: re.sub of the lazy slash-star pattern. -/
def stripBlock (l : List Char) : List Char := stripBlockGo l.length l

/-- Line-break characters recognised by Python str.splitlines. -/
def isLineBreak (c : Char) : Bool :=
  c.toNat = 10 || c.toNat = 13 || c.toNat = 11 || c.toNat = 12 ||
  c.toNat = 28 || c.toNat = 29 || c.toNat = 30 || c.toNat = 133 ||
  c.toNat = 8232 || c.toNat = 8233

/-- Python str.splitlines: cut at every line break, treating a carriage
return followed by a newline as a single break, and do not produce a
final empty line for a trailing break.  Fuel-driven; the wrapper passes
the length of the list, which always suffices. -/
def splitlinesGo : Nat → List Char → List Char → List (List Char)
  | 0, _, acc => if acc.isEmpty then [] else [acc.reverse]
  | _ + 1, [], acc => if acc.isEmpty then [] else [acc.reverse]
  | n + 1, c :: rest, acc =>
    if c = '\r' then
      match rest with
      | '\n' :: rest' => acc.reverse :: splitlinesGo n rest' []
      | _ => acc.reverse :: splitlinesGo n rest []
    else if isLineBreak c then
      acc.reverse :: splitlinesGo n rest []
    else
      splitlinesGo n rest (c :: acc)

def splitlines (l : List Char) : List (List Char) := splitlinesGo l.length l []

/-- Cut one line at its first double slash: raw.split with a double-slash
separator, keeping the first part. -/
def cutLineComment : List Char → List Char
  | [] => []
  | [c] => [c]
  | c :: d :: rest =>
    if c = '/' && d = '/' then [] else c :: cutLineComment (d :: rest)

/-- parser.strip_block_and_line_comments: block comments first, then the
per-line comment cut, lines rejoined with a newline. -/
def strip_block_and_line_comments (text : List Char) : List Char :=
  joinSep ['\n'] ((splitlines (stripBlock text)).map cutLineComment)

/-- Whether the text holds a slash-star pair somewhere. -/
def hasPS : List Char → Bool
  | [] => false
  | [_] => false
  | c :: d :: rest => (c = '/' && d = '*') || hasPS (d :: rest)

theorem stripBlockGo_of_no_ps :
    ∀ n l, l.length ≤ n → hasPS l = false → stripBlockGo n l = l := by
  intro n
  induction n with
  | zero => intro l _ _; rfl
  | succ n ih =>
    intro l hlen hps
    match l with
    | [] => rfl
    | [c] => rfl
    | c :: d :: rest =>
      simp only [hasPS, Bool.or_eq_false_iff] at hps
      simp only [stripBlockGo, hps.1, Bool.false_eq_true, if_false]
      rw [ih (d :: rest) (by simp at hlen ⊢; omega) hps.2]

/-- Block-comment removal changes nothing when no comment opens. -/
theorem stripBlock_of_no_ps {l : List Char} (h : hasPS l = false) :
    stripBlock l = l :=
  stripBlockGo_of_no_ps l.length l le_rfl h

theorem splitlinesGo_of_no_break :
    ∀ n l acc, l.length ≤ n → (∀ c ∈ l, isLineBreak c = false) →
      splitlinesGo n l acc =
        if acc = [] ∧ l = [] then [] else [acc.reverse ++ l] := by
  intro n
  induction n with
  | zero =>
    intro l acc hlen _
    have hl : l = [] := by
      cases l with
      | nil => rfl
      | cons c r => simp at hlen
    subst hl
    simp only [splitlinesGo, List.isEmpty_iff]
    by_cases hacc : acc = [] <;> simp [hacc]
  | succ n ih =>
    intro l acc hlen hnb
    match l with
    | [] =>
      simp only [splitlinesGo, List.isEmpty_iff]
      by_cases hacc : acc = [] <;> simp [hacc]
    | c :: rest =>
      have hc : isLineBreak c = false := hnb c (by simp)
      have hcr : ¬ c = '\r' := by
        intro hcc; subst hcc; simp [isLineBreak] at hc
      simp only [splitlinesGo, hcr, if_false, hc, Bool.false_eq_true]
      rw [ih rest (c :: acc) (by simp at hlen ⊢; omega)
        (fun x hx => hnb x (by simp [hx]))]
      simp

/-- splitlines of a break-free text is the single line itself. -/
theorem splitlines_of_no_break {l : List Char}
    (h : ∀ c ∈ l, isLineBreak c = false) :
    splitlines l = if l = [] then [] else [l] := by
  unfold splitlines
  rw [splitlinesGo_of_no_break l.length l [] le_rfl h]
  by_cases hl : l = [] <;> simp [hl]

/-- Cutting at the first double slash keeps only earlier characters. -/
theorem mem_cutLineComment :
    ∀ {l : List Char} {c : Char}, c ∈ cutLineComment l → c ∈ l := by
  intro l
  induction l with
  | nil => intro c h; simp [cutLineComment] at h
  | cons a tl ih =>
    intro c h
    match tl, h with
    | [], h => simpa [cutLineComment] using h
    | b :: tl, h =>
      by_cases hab : (a = '/' && b = '/') = true
      · simp [cutLineComment, hab] at h
      · simp only [cutLineComment, hab, Bool.false_eq_true, if_false,
          List.mem_cons] at h
        rcases h with h | h
        · simp [h]
        · simpa using Or.inr (ih h)

/-- The cut line keeps no slash-star pair if the line had none. -/
theorem cutLineComment_no_ps :
    ∀ {l : List Char}, hasPS l = false → hasPS (cutLineComment l) = false := by
  intro l
  induction l with
  | nil => intro _; rfl
  | cons a tl ih =>
    intro h
    match tl, h with
    | [], _ => rfl
    | b :: tl, h =>
      simp only [hasPS, Bool.or_eq_false_iff] at h
      by_cases hab : (a = '/' && b = '/') = true
      · simp [cutLineComment, hab, hasPS]
      · simp only [cutLineComment, hab, Bool.false_eq_true, if_false]
        have htl := ih h.2
        match hcl : cutLineComment (b :: tl) with
        | [] => simp [hasPS]
        | e :: rest =>
          have he : e = b := by
            match tl, hcl with
            | [], hcl => simp [cutLineComment] at hcl; exact hcl.1.symm
            | d :: tl, hcl =>
              by_cases hbd : (b = '/' && d = '/') = true
              · simp [cutLineComment, hbd] at hcl
              · simp only [cutLineComment, hbd, Bool.false_eq_true, if_false,
                  List.cons.injEq] at hcl
                exact hcl.1.symm
          subst he
          rw [hcl] at htl
          simp only [hasPS, Bool.or_eq_false_iff]
          exact ⟨h.1, htl⟩

/-- Cutting a line at its first double slash is idempotent. -/
theorem cutLineComment_idem :
    ∀ l : List Char, cutLineComment (cutLineComment l) = cutLineComment l := by
  intro l
  induction l with
  | nil => rfl
  | cons a tl ih =>
    match tl with
    | [] => rfl
    | b :: tl =>
      by_cases hab : (a = '/' && b = '/') = true
      · simp [cutLineComment, hab]
      · simp only [cutLineComment, hab, Bool.false_eq_true, if_false]
        match hcl : cutLineComment (b :: tl) with
        | [] => rfl
        | e :: rest =>
          have he : e = b := by
            match tl, hcl with
            | [], hcl => simp [cutLineComment] at hcl; exact hcl.1.symm
            | d :: tl, hcl =>
              by_cases hbd : (b = '/' && d = '/') = true
              · simp [cutLineComment, hbd] at hcl
              · simp only [cutLineComment, hbd, Bool.false_eq_true, if_false,
                  List.cons.injEq] at hcl
                exact hcl.1.symm
          subst he
          have := ih
          rw [hcl] at this
          simp only [cutLineComment, hab, Bool.false_eq_true, if_false,
            List.cons.injEq, true_and]
          exact this

/-- On a break-free text the stripper is block removal then one line cut. -/
theorem strip_of_no_break {t : List Char}
    (hb : ∀ c ∈ t, isLineBreak c = false) (hps : hasPS t = false) :
    strip_block_and_line_comments t = cutLineComment t := by
  unfold strip_block_and_line_comments
  rw [stripBlock_of_no_ps hps, splitlines_of_no_break hb]
  by_cases ht : t = []
  · subst ht; simp [joinSep, cutLineComment]
  · simp [ht, joinSep]

/-- C6 counterexample: comment removal is not idempotent.  Stripping the
two-newline text once yields a single newline, because splitlines drops
the final empty line and the rejoin does not restore the trailing break;
stripping again yields the empty text. -/
theorem C6_counterexample :
    strip_block_and_line_comments
        (strip_block_and_line_comments ("\n\n".toList)) ≠
      strip_block_and_line_comments ("\n\n".toList) := by
  decide

/-- C6 (amended): comment removal is idempotent on every config text that
holds no line-break character and no block-comment opener.  In general a
second application can strip further: rejoining lines eats a trailing
line break (text of two newlines), and removing a block comment can
juxtapose a slash and a star into a new opener that only the next pass
removes. -/
theorem C6_strip_idempotent_amended (t : List Char)
    (hb : ∀ c ∈ t, isLineBreak c = false) (hps : hasPS t = false) :
    strip_block_and_line_comments (strip_block_and_line_comments t) =
      strip_block_and_line_comments t := by
  rw [strip_of_no_break hb hps]
  have hb' : ∀ c ∈ cutLineComment t, isLineBreak c = false :=
    fun c hc => hb c (mem_cutLineComment hc)
  rw [strip_of_no_break hb' (cutLineComment_no_ps hps), cutLineComment_idem]

/-- Witness for the amended C6 on a concrete one-line config text. -/
theorem C6_strip_idempotent_amended_witness :
    strip_block_and_line_comments
        (strip_block_and_line_comments
          ("struct A \x7b BYTE F[1]; \x7d // tail".toList)) =
      strip_block_and_line_comments
        ("struct A \x7b BYTE F[1]; \x7d // tail".toList) :=
  C6_strip_idempotent_amended _ (by decide) (by decide)

/-! ## Byte-spec codec (cli.py: escape_bytes, parse_bytes_from_arg,
parse_term) -/

/-- Lowercase hex digit characters, as produced by the 02x format. -/
def hexDigitChar : Nat → Char
  | 0 => '0' | 1 => '1' | 2 => '2' | 3 => '3' | 4 => '4' | 5 => '5'
  | 6 => '6' | 7 => '7' | 8 => '8' | 9 => '9' | 10 => 'a' | 11 => 'b'
  | 12 => 'c' | 13 => 'd' | 14 => 'e' | 15 => 'f' | _ => '0'

/-- Two lowercase hex digits of one byte (bytes read from a file are
below 256, where this agrees with the 02x format). -/
def hexByteChars (b : Nat) : List Char :=
  [hexDigitChar (b / 16 % 16), hexDigitChar (b % 16)]

/-- The hex visualization text: space-joined pairs when the configured
marker text is empty, else marker-plus-pair concatenated. -/
def hexRender (bs : List Nat) (p : List Char) : List Char :=
  if p = [] then joinSep [' '] (bs.map hexByteChars)
  else (bs.map (fun b => p ++ hexByteChars b)).flatten

/-- cli.escape_bytes: mode none is the identity; mode hex renders every
byte as two lowercase hex digits, space-joined without a marker and
concatenated behind the marker otherwise, then ASCII-encodes the text;
any other mode raises. -/
def escape_bytes (bs : List Nat) (mode : String) (pfx : String) :
    Except String (List Nat) :=
  if mode = "none" then .ok bs
  else if mode ≠ "hex" then .error "unknown escape mode"
  else
    let s := hexRender bs pfx.toList
    if s.all (fun c => c.toNat < 128) then .ok (s.map Char.toNat)
    else .error "ascii encode failed"

/-- The value escape_bytes returns when it does not raise. -/
def escapeValue (bs : List Nat) (mode : String) (pfx : String) : List Nat :=
  if mode = "none" then bs else (hexRender bs pfx.toList).map Char.toNat

/-- Escape configurations on which escape_bytes never raises: mode none,
or mode hex with an ASCII marker. -/
def ModeOk (mode pfx : String) : Prop :=
  mode = "none" ∨ (mode = "hex" ∧ ∀ c ∈ pfx.toList, c.toNat < 128)

theorem hexDigitChar_ascii (n : Nat) : (hexDigitChar n).toNat < 128 := by
  unfold hexDigitChar
  split <;> decide

theorem hexRender_ascii (bs : List Nat) (p : List Char)
    (hp : ∀ c ∈ p, c.toNat < 128) : ∀ c ∈ hexRender bs p, c.toNat < 128 := by
  intro c hc
  unfold hexRender at hc
  split at hc
  · rcases mem_joinSep hc with h | ⟨l, hl, hcl⟩
    · simp at h; subst h; decide
    · obtain ⟨b, _, rfl⟩ := List.mem_map.mp hl
      rcases hcl with _ | ⟨_, hh⟩
      · exact hexDigitChar_ascii _
      · rcases hh with _ | ⟨_, hcontra⟩
        · exact hexDigitChar_ascii _
        · cases hcontra
  · obtain ⟨l, hl, hcl⟩ := List.mem_flatten.mp hc
    obtain ⟨b, _, rfl⟩ := List.mem_map.mp hl
    rcases List.mem_append.mp hcl with h | h
    · exact hp c h
    · rcases h with _ | ⟨_, hh⟩
      · exact hexDigitChar_ascii _
      · rcases hh with _ | ⟨_, hcontra⟩
        · exact hexDigitChar_ascii _
        · cases hcontra

/-- With a sane escape configuration escape_bytes never raises, and
returns the total rendering function. -/
theorem escape_bytes_ok (bs : List Nat) (mode pfx : String)
    (h : ModeOk mode pfx) :
    escape_bytes bs mode pfx = .ok (escapeValue bs mode pfx) := by
  rcases h with h | ⟨h, hp⟩
  · subst h; simp [escape_bytes, escapeValue]
  · subst h
    have hall : ((hexRender bs pfx.toList).all fun c => decide (c.toNat < 128))
        = true :=
      List.all_eq_true.mpr fun c hc =>
        decide_eq_true (hexRender_ascii bs pfx.toList hp c hc)
    simp [escape_bytes, escapeValue, hall]
    exact fun x hx => hexRender_ascii bs pfx.toList hp x hx

/-- C7: visualize with mode none is the identity on any byte sequence
for any marker; the bytes 00 and 1f render as the text of two
space-separated lowercase hex pairs without a marker and as
percent-prefixed concatenated pairs with marker percent; any mode other
than none and hex raises. -/
theorem C7_visualize_modes :
    (∀ (bs : List Nat) (p : String), escape_bytes bs "none" p = .ok bs)
    ∧ escape_bytes [0x00, 0x1f] "hex" "" = .ok (strBytes "00 1f")
    ∧ escape_bytes [0x00, 0x1f] "hex" "%" = .ok (strBytes "%00%1f")
    ∧ (∀ mode : String, mode ≠ "none" → mode ≠ "hex" →
        ∀ (bs : List Nat) (p : String),
          isErr (escape_bytes bs mode p) = true) := by
  refine ⟨fun bs p => by simp [escape_bytes], by rfl, by rfl,
    fun mode h1 h2 bs p => ?_⟩
  simp [escape_bytes, h1, h2, isErr]

/-- Witness for C7 at a concrete unknown mode. -/
theorem C7_visualize_modes_witness :
    isErr (escape_bytes [1, 2] "raw" "") = true :=
  C7_visualize_modes.2.2.2 "raw" (by decide) (by decide) [1, 2] ""

/-- The characters Python str.isspace holds true for, which is the set
str.strip with no argument removes: ASCII whitespace, the ASCII
separator controls, next line, no-break space, ogham space mark, the
general punctuation spaces, the line and paragraph separators, narrow
no-break space, medium mathematical space and ideographic space. -/
def isPyWs (c : Char) : Bool :=
  isAsciiWs c || c.toNat = 28 || c.toNat = 29 || c.toNat = 30 ||
  c.toNat = 31 || c.toNat = 133 || c.toNat = 160 || c.toNat = 5760 ||
  (8192 ≤ c.toNat && c.toNat ≤ 8202) || c.toNat = 8232 ||
  c.toNat = 8233 || c.toNat = 8239 || c.toNat = 8287 || c.toNat = 12288

/-- Python str.strip with no argument: remove Unicode whitespace from
both ends. -/
def pyStripChars (l : List Char) : List Char :=
  ((l.dropWhile isPyWs).reverse.dropWhile isPyWs).reverse

/-- ASCII hex digit in either case, as bytes.fromhex accepts. -/
def isHexChar (c : Char) : Bool :=
  isDigitChar c || (97 ≤ c.toNat && c.toNat ≤ 102) ||
    (65 ≤ c.toNat && c.toNat ≤ 70)

/-- Value of one hex digit character. -/
def hexCharVal (c : Char) : Nat :=
  if isDigitChar c then c.toNat - 48
  else if 97 ≤ c.toNat then c.toNat - 87
  else c.toNat - 55

/-- bytes.fromhex: pairs of hex digits, ASCII whitespace allowed
between pairs, none inside a pair; anything else fails. -/
def fromhexGo : List Char → Option (List Nat)
  | [] => some []
  | c :: rest =>
    if isAsciiWs c then fromhexGo rest
    else
      match rest with
      | [] => none
      | c2 :: rest2 =>
        if isHexChar c && isHexChar c2 then
          (fromhexGo rest2).map
            (fun bs => (hexCharVal c * 16 + hexCharVal c2) :: bs)
        else none

theorem fromhexGo_cons (c : Char) (rest : List Char) :
    fromhexGo (c :: rest) =
      if isAsciiWs c then fromhexGo rest
      else
        match rest with
        | [] => none
        | c2 :: rest2 =>
          if isHexChar c && isHexChar c2 then
            (fromhexGo rest2).map
              (fun bs => (hexCharVal c * 16 + hexCharVal c2) :: bs)
          else none := by
  rw [fromhexGo.eq_def]

/-- A successful fromhex saw only ASCII whitespace and hex digits. -/
theorem fromhexGo_mem :
    ∀ {l : List Char} {bs : List Nat}, fromhexGo l = some bs →
      ∀ c ∈ l, isAsciiWs c = true ∨ isHexChar c = true
  | [], _, _ => by simp
  | c :: rest, bs, h => by
    rw [fromhexGo_cons] at h
    intro x hx
    by_cases hc : isAsciiWs c = true
    · rw [if_pos hc] at h
      rcases List.mem_cons.mp hx with rfl | hx'
      · exact Or.inl hc
      · exact fromhexGo_mem h x hx'
    · rw [if_neg hc] at h
      match rest, h, hx with
      | [], h, _ => cases h
      | c2 :: rest2, h, hx =>
        have h' : (if isHexChar c && isHexChar c2 then
            (fromhexGo rest2).map
              (fun bs => (hexCharVal c * 16 + hexCharVal c2) :: bs)
          else none) = some bs := h
        by_cases hh : (isHexChar c && isHexChar c2) = true
        · rw [if_pos hh] at h'
          obtain ⟨hhc, hhc2⟩ : isHexChar c = true ∧ isHexChar c2 = true := by
            simpa using hh
          obtain ⟨bs', hbs', _⟩ := Option.map_eq_some'.mp h'
          rcases List.mem_cons.mp hx with rfl | hx'
          · exact Or.inr hhc
          · rcases List.mem_cons.mp hx' with rfl | hx''
            · exact Or.inr hhc2
            · exact fromhexGo_mem hbs' x hx''
        · rw [if_neg hh] at h'
          exact Option.noConfusion h'

/-- UTF-8 encoding of one Unicode code point (1 to 4 bytes). -/
def utf8Bytes (cp : Nat) : List Nat :=
  if cp < 0x80 then [cp]
  else if cp < 0x800 then [0xC0 + cp / 64, 0x80 + cp % 64]
  else if cp < 0x10000 then
    [0xE0 + cp / 4096, 0x80 + cp / 64 % 64, 0x80 + cp % 64]
  else
    [0xF0 + cp / 262144, 0x80 + cp / 4096 % 64, 0x80 + cp / 64 % 64,
      0x80 + cp % 64]

/-- UTF-8 encoding of a sequence of code points. -/
def utf8Encode (cps : List Nat) : List Nat := (cps.map utf8Bytes).flatten

/-- ASCII octal digit. -/
def isOctalChar (c : Char) : Bool := 48 ≤ c.toNat && c.toNat ≤ 55

/-- Value of one octal digit character. -/
def octVal (c : Char) : Nat := c.toNat - 48

/-- Read exactly n hex digits, returning their value and the rest. -/
def readHexN : Nat → List Char → Option (Nat × List Char)
  | 0, l => some (0, l)
  | _ + 1, [] => none
  | n + 1, c :: rest =>
    if isHexChar c then
      (readHexN n rest).map (fun vr => (hexCharVal c * 16 ^ n + vr.1, vr.2))
    else none

/-- The unicode-escape codec over a Latin-1 text, producing code points.
Escape forms follow the Python codec: the simple letter escapes, line
continuation, up to three octal digits, x with two hex digits, u with
four and U with eight (failing on lone surrogates and values past the
Unicode range, which the caller turns into the UTF-8 fallback), unknown
escapes kept verbatim.  A named escape with N is treated as a failure;
the CPython name lookup is not modelled, and no caller of this codec in
the repository is reached by a verified claim through that form.
Fuel-driven; the wrapper passes the text length, which always suffices. -/
def decodeUEGo : Nat → List Char → Option (List Nat)
  | 0, [] => some []
  | 0, _ :: _ => none
  | _ + 1, [] => some []
  | n + 1, '\\' :: rest =>
    match rest with
    | [] => none
    | e :: tl =>
      if e = '\n' then decodeUEGo n tl
      else if e = '\\' then (decodeUEGo n tl).map (92 :: ·)
      else if e = '\'' then (decodeUEGo n tl).map (39 :: ·)
      else if e = '"' then (decodeUEGo n tl).map (34 :: ·)
      else if e = 'a' then (decodeUEGo n tl).map (7 :: ·)
      else if e = 'b' then (decodeUEGo n tl).map (8 :: ·)
      else if e = 'f' then (decodeUEGo n tl).map (12 :: ·)
      else if e = 'n' then (decodeUEGo n tl).map (10 :: ·)
      else if e = 'r' then (decodeUEGo n tl).map (13 :: ·)
      else if e = 't' then (decodeUEGo n tl).map (9 :: ·)
      else if e = 'v' then (decodeUEGo n tl).map (11 :: ·)
      else if isOctalChar e then
        match tl with
        | d2 :: tl2 =>
          if isOctalChar d2 then
            match tl2 with
            | d3 :: tl3 =>
              if isOctalChar d3 then
                (decodeUEGo n tl3).map
                  ((octVal e * 64 + octVal d2 * 8 + octVal d3) :: ·)
              else (decodeUEGo n tl2).map ((octVal e * 8 + octVal d2) :: ·)
            | [] => (decodeUEGo n tl2).map ((octVal e * 8 + octVal d2) :: ·)
          else (decodeUEGo n tl).map (octVal e :: ·)
        | [] => (decodeUEGo n tl).map (octVal e :: ·)
      else if e = 'x' then
        match readHexN 2 tl with
        | some (v, r) => (decodeUEGo n r).map (v :: ·)
        | none => none
      else if e = 'u' then
        match readHexN 4 tl with
        | some (v, r) =>
          if 0xD800 ≤ v ∧ v ≤ 0xDFFF then none
          else (decodeUEGo n r).map (v :: ·)
        | none => none
      else if e = 'U' then
        match readHexN 8 tl with
        | some (v, r) =>
          if (0xD800 ≤ v ∧ v ≤ 0xDFFF) ∨ 0x10FFFF < v then none
          else (decodeUEGo n r).map (v :: ·)
        | none => none
      else if e = 'N' then none
      else (decodeUEGo n tl).map (fun cs => 92 :: e.toNat :: cs)
  | n + 1, c :: rest => (decodeUEGo n rest).map (c.toNat :: ·)

def decodeUnicodeEscape (l : List Char) : Option (List Nat) :=
  decodeUEGo l.length l

/-- cli.parse_bytes_from_arg: a token with the hex marker decodes an
even-length hex string after stripping outer whitespace; a token with a
backslash goes through the unicode-escape codec (over its Latin-1 form,
falling back to plain UTF-8 when that fails, including for characters
past Latin-1); any other token is UTF-8 encoded verbatim. -/
def parse_bytes_from_arg (arg : List Char) : Except String (List Nat) :=
  if arg.take 4 = "hex:".toList then
    let hexpart := pyStripChars (arg.drop 4)
    if hexpart.length = 0 ∨ hexpart.length % 2 ≠ 0 then
      .error "hex spec needs an even number of hex digits"
    else
      match fromhexGo hexpart with
      | some bs => .ok bs
      | none => .error "hex spec cannot be decoded"
  else if arg.contains '\\' then
    match (if arg.all (fun c => c.toNat ≤ 255) then decodeUnicodeEscape arg
           else none) with
    | some cps => .ok (utf8Encode cps)
    | none => .ok (utf8Encode (arg.map Char.toNat))
  else .ok (utf8Encode (arg.map Char.toNat))

/-- C8: a hex-marked token with the even hex text 1f2a resolves to the
two bytes 1f and 2a; a hex-marked token whose stripped payload has odd
length errors, and so does one whose payload holds a character that is
neither a hex digit nor ASCII whitespace (whitespace between digit
pairs is skipped by bytes.fromhex, and outer Unicode whitespace is
already stripped). -/
theorem C8_resolveByteSpec_hex :
    parse_bytes_from_arg ("hex:1f2a".toList) = .ok [0x1f, 0x2a]
    ∧ (∀ rest : List Char, (pyStripChars rest).length % 2 = 1 →
        isErr (parse_bytes_from_arg ('h' :: 'e' :: 'x' :: ':' :: rest)) =
          true)
    ∧ (∀ (rest : List Char) (c : Char), c ∈ pyStripChars rest →
        isHexChar c = false → isAsciiWs c = false →
        isErr (parse_bytes_from_arg ('h' :: 'e' :: 'x' :: ':' :: rest)) =
          true) := by
  refine ⟨by rfl, fun rest h => ?_, fun rest c hc hhex hsp => ?_⟩
  · have h4 : (('h' :: 'e' :: 'x' :: ':' :: rest).take 4) = "hex:".toList :=
      rfl
    have h5 : (('h' :: 'e' :: 'x' :: ':' :: rest).drop 4) = rest := rfl
    simp only [parse_bytes_from_arg, h4, h5, if_pos]
    rw [if_pos (Or.inr (by omega))]
    rfl
  · have h4 : (('h' :: 'e' :: 'x' :: ':' :: rest).take 4) = "hex:".toList :=
      rfl
    have h5 : (('h' :: 'e' :: 'x' :: ':' :: rest).drop 4) = rest := rfl
    simp only [parse_bytes_from_arg, h4, h5, if_pos]
    by_cases hlen : (pyStripChars rest).length = 0 ∨
        (pyStripChars rest).length % 2 ≠ 0
    · rw [if_pos hlen]; rfl
    · rw [if_neg hlen]
      cases hfh : fromhexGo (pyStripChars rest) with
      | some bs =>
        rcases fromhexGo_mem hfh c hc with h' | h'
        · rw [hsp] at h'; cases h'
        · rw [h'] at hhex; cases hhex
      | none => rfl

/-- C10: a hex-marked token with an empty hex part errors instead of
returning the empty byte sequence (the length-zero check in
parse_bytes_from_arg fires before the even-length check). -/
theorem C10_empty_hex_spec_errors :
    isErr (parse_bytes_from_arg ("hex:".toList)) = true := by rfl

/-- Witness for C8 at concrete malformed tokens. -/
theorem C8_resolveByteSpec_hex_witness :
    isErr (parse_bytes_from_arg ('h' :: 'e' :: 'x' :: ':' :: "1f2".toList)) =
        true
    ∧ isErr (parse_bytes_from_arg ('h' :: 'e' :: 'x' :: ':' :: "1g".toList)) =
        true :=
  ⟨C8_resolveByteSpec_hex.2.1 "1f2".toList (by decide),
    C8_resolveByteSpec_hex.2.2 "1g".toList 'g' (by decide) (by decide)
      (by decide)⟩

/-- cli.parse_term: terminator keywords are matched case-insensitively,
anything else goes through parse_bytes_from_arg unchanged. -/
def parse_term (term : List Char) : Except String (List Nat) :=
  let t := term.map pyLower
  if t = "crlf".toList then .ok [13, 10]
  else if t = "lf".toList then .ok [10]
  else if t = "cr".toList then .ok [13]
  else if t = "none".toList then .ok []
  else parse_bytes_from_arg term

/-! ## Layout parser (parser.py: parse_ext_list, parse_structs_config)

The two regexes are modelled by deterministic scanners: at every
position the fixed sequence of the pattern is tried, and on failure the
scan advances one character, which matches the backtracking-free shape
of both patterns.  The struct pattern has no ASCII flag in the source;
its whitespace class is modelled as ASCII whitespace, which covers every
configuration text the repository handles. -/

structure StructDef where
  name : String
  fields : List (String × Nat)
  exts : List String
  deriving DecidableEq, Repr

/-- Python str.split on a comma. -/
def splitComma : List Char → List (List Char)
  | [] => [[]]
  | c :: rest =>
    if c = ',' then [] :: splitComma rest
    else
      match splitComma rest with
      | t :: ts => (c :: t) :: ts
      | [] => [[c]]

/-- Python str.strip with an explicit character set. -/
def stripCustom (set : List Char) (l : List Char) : List Char :=
  ((l.dropWhile (fun c => set.contains c)).reverse.dropWhile
    (fun c => set.contains c)).reverse

/-- parser.parse_ext_list: split the raw extension text on commas, trim
each token, drop one leading dot, lowercase, trim spaces semicolons and
line breaks, and keep the non-blank results. -/
def parse_ext_list (exts_raw : List Char) : List String :=
  if exts_raw = [] then []
  else
    (splitComma exts_raw).filterMap (fun tok =>
      let t := pyStripChars tok
      if t = [] then none
      else
        let t1 := match t with | '.' :: r => r | _ => t
        let t2 := stripCustom " ;\t\r\n".toList (t1.map pyLower)
        if t2 = [] then none else some t2.asString)

/-- Consume a case-sensitive literal. -/
def eatLit : List Char → List Char → Option (List Char)
  | [], s => some s
  | _ :: _, [] => none
  | c :: cs, d :: ds => if d = c then eatLit cs ds else none

/-- Consume a case-insensitive literal (the struct regex is compiled
with the ignore-case flag). -/
def eatLitCI : List Char → List Char → Option (List Char)
  | [], s => some s
  | _ :: _, [] => none
  | c :: cs, d :: ds => if pyLower d = pyLower c then eatLitCI cs ds else none

/-- Consume at least one whitespace character. -/
def eatWs1 (s : List Char) : Option (List Char) :=
  match s with
  | c :: rest =>
    if isAsciiWs c then some (rest.dropWhile isAsciiWs) else none
  | [] => none

/-- Consume optional whitespace. -/
def eatWs (s : List Char) : List Char := s.dropWhile isAsciiWs

/-- Consume one identifier: a letter or underscore, then word characters,
greedily. -/
def eatIdent (s : List Char) : Option (List Char × List Char) :=
  match s with
  | c :: rest =>
    if isIdentStart c then
      some (c :: rest.takeWhile isWordChar, rest.dropWhile isWordChar)
    else none
  | [] => none

/-- Consume one given character. -/
def eatChar (c : Char) : List Char → Option (List Char)
  | d :: rest => if d = c then some rest else none
  | [] => none

/-- Value of a decimal digit string. -/
def digitsVal (l : List Char) : Nat :=
  l.foldl (fun acc c => acc * 10 + (c.toNat - 48)) 0

/-- Consume at least one decimal digit, greedily, returning the value. -/
def eatDigits1 (s : List Char) : Option (Nat × List Char) :=
  match s with
  | c :: _ =>
    if isDigitChar c then
      some (digitsVal (s.takeWhile isDigitChar), s.dropWhile isDigitChar)
    else none
  | [] => none

/-- Split at the first occurrence of a character: the part before it and
the part after it, or nothing when the character is absent.  This is how
the lazy regex body of a struct block ends at the first closing brace. -/
def takeUntilChar (c : Char) : List Char → Option (List Char × List Char)
  | [] => none
  | d :: rest =>
    if d = c then some ([], rest)
    else (takeUntilChar c rest).map (fun p => (d :: p.1, p.2))

/-- One attempted match of the BYTE declaration pattern at the current
position: the BYTE literal, whitespace, a field name, an open bracket, a
digit string, a close bracket and a semicolon, with optional whitespace
as in the pattern. -/
def matchByteDecl (s : List Char) : Option ((String × Nat) × List Char) := do
  let s ← eatLit "BYTE".toList s
  let s ← eatWs1 s
  let (name, s) ← eatIdent s
  let s ← eatChar '[' (eatWs s)
  let (v, s) ← eatDigits1 (eatWs s)
  let s ← eatChar ']' (eatWs s)
  let s ← eatChar ';' (eatWs s)
  return ((name.asString, v), s)

/-- All matches of the BYTE declaration pattern, scanned left to right
without overlap, honouring the word boundary before the BYTE literal.
The tracked previous character decides the boundary.  Fuel-driven; every
wrapper passes the scanned length, which always suffices because a match
consumes at least one character. -/
def scanByteDecls : Nat → Option Char → List Char → List (String × Nat)
  | 0, _, _ => []
  | _ + 1, _, [] => []
  | n + 1, prev, c :: rest =>
    if (match prev with | some p => isWordChar p | none => false) then
      scanByteDecls n (some c) rest
    else
      match matchByteDecl (c :: rest) with
      | some (decl, rest') => decl :: scanByteDecls n (some ';') rest'
      | none => scanByteDecls n (some c) rest

/-- One attempted match of the struct block pattern at the current
position: the struct literal (any case), whitespace, the struct name, an
open brace, the lazy body up to the first close brace, then whitespace,
the raw extension text up to a semicolon or brace, and one optional
semicolon.  Returns name, body and raw extension text with the rest of
the input. -/
def matchStructBlock (s : List Char) :
    Option ((List Char × List Char × List Char) × List Char) := do
  let s ← eatLitCI "struct".toList s
  let s ← eatWs1 s
  let (name, s) ← eatIdent s
  let s ← eatChar '{' (eatWs s)
  let (body, s) ← takeUntilChar '}' s
  let s2 := eatWs s
  let extRaw := s2.takeWhile (fun c => !(c = ';' || c = '{' || c = '}'))
  let s3 := s2.dropWhile (fun c => !(c = ';' || c = '{' || c = '}'))
  let s4 := match s3 with | ';' :: r => r | _ => s3
  return ((name, body, extRaw), s4)

/-- All matches of the struct block pattern, scanned left to right
without overlap.  Fuel-driven like the declaration scan. -/
def scanStructBlocks : Nat → List Char → List (List Char × List Char × List Char)
  | 0, _ => []
  | _ + 1, [] => []
  | n + 1, c :: rest =>
    match matchStructBlock (c :: rest) with
    | some (blk, rest') => blk :: scanStructBlocks n rest'
    | none => scanStructBlocks n rest

/-- One attempted match of the anonymous struct pattern: as the named
pattern but with no name and optional whitespace after the literal. -/
def matchAnonBlock (s : List Char) : Option (List Char × List Char) := do
  let s ← eatLitCI "struct".toList s
  let s ← eatChar '{' (eatWs s)
  let (body, s) ← takeUntilChar '}' s
  let s2 := eatWs s
  let extRaw := s2.takeWhile (fun c => !(c = ';' || c = '{' || c = '}'))
  return (body, extRaw)

/-- re.search of the anonymous struct pattern: the first match only. -/
def searchAnonBlock : Nat → List Char → Option (List Char × List Char)
  | 0, _ => none
  | _ + 1, [] => none
  | n + 1, c :: rest =>
    match matchAnonBlock (c :: rest) with
    | some r => some r
    | none => searchAnonBlock n rest

/-- The per-field validation loop of parse_structs_config: a scanned
declared length can only fail the positivity check by being zero, since
the pattern admits plain digit strings only. -/
def checkFields : List (String × Nat) → Except String (List (String × Nat))
  | [] => .ok []
  | (fn, fl) :: fs =>
    if fl = 0 then .error "field length is not positive"
    else
      match checkFields fs with
      | .error e => .error e
      | .ok r => .ok ((fn, fl) :: r)

/-- Build one StructDef from a scanned block, validating its fields. -/
def mkStruct (blk : List Char × List Char × List Char) :
    Except String StructDef :=
  match checkFields (scanByteDecls blk.2.1.length none blk.2.1) with
  | .error e => .error e
  | .ok fields =>
    if fields = [] then .error "struct has no BYTE fields"
    else .ok ⟨blk.1.asString, fields, parse_ext_list blk.2.2⟩

/-- Run an Except-valued function over a list, stopping at the first
error, as the Python loop raising inside an iteration does. -/
def mapExcept (f : α → Except ε β) : List α → Except ε (List β)
  | [] => .ok []
  | a :: rest =>
    match f a with
    | .error e => .error e
    | .ok b =>
      match mapExcept f rest with
      | .error e => .error e
      | .ok bs => .ok (b :: bs)

/-- The part of parse_structs_config that runs on the comment-stripped
text: scan the named struct blocks into layouts, and when none is found
fall back to one anonymous block, or fail. -/
def parseStructsCleaned (cleaned : List Char) : Except String (List StructDef) :=
  match mapExcept mkStruct (scanStructBlocks cleaned.length cleaned) with
  | .error e => .error e
  | .ok structs =>
    if structs.isEmpty then
      match searchAnonBlock cleaned.length cleaned with
      | some (body, extRaw) =>
        match checkFields (scanByteDecls body.length none body) with
        | .error e => .error e
        | .ok fields =>
          if fields = [] then .error "anonymous struct has no BYTE fields"
          else .ok [⟨"_anonymous_", fields, parse_ext_list extRaw⟩]
      | none => .error "no struct definition found"
    else .ok structs

/-- parser.parse_structs_config: strip comments, then scan. -/
def parse_structs_config (text : List Char) : Except String (List StructDef) :=
  parseStructsCleaned (strip_block_and_line_comments text)

/-- The field check returns its input and certifies every length. -/
theorem checkFields_ok :
    ∀ {l r : List (String × Nat)}, checkFields l = .ok r →
      r = l ∧ ∀ p ∈ r, 0 < p.2
  | [], r, h => by
    simp only [checkFields, Except.ok.injEq] at h
    simp [← h]
  | (fn, fl) :: fs, r, h => by
    simp only [checkFields] at h
    by_cases hfl : fl = 0
    · rw [if_pos hfl] at h; cases h
    · rw [if_neg hfl] at h
      cases hck : checkFields fs with
      | error e => rw [hck] at h; cases h
      | ok r' =>
        rw [hck] at h
        simp only [Except.ok.injEq] at h
        obtain ⟨hr', hpos⟩ := checkFields_ok hck
        subst hr'
        constructor
        · rw [← h]
        · intro p hp
          rw [← h] at hp
          rcases List.mem_cons.mp hp with rfl | hp'
          · exact Nat.pos_of_ne_zero hfl
          · exact hpos p hp'

/-- Every element of a successful mapExcept comes from one input. -/
theorem mapExcept_ok_mem {f : α → Except ε β} :
    ∀ {l : List α} {l' : List β}, mapExcept f l = .ok l' →
      ∀ y ∈ l', ∃ x ∈ l, f x = .ok y
  | [], l', h => by
    simp only [mapExcept, Except.ok.injEq] at h
    subst h; simp
  | a :: rest, l', h => by
    simp only [mapExcept] at h
    cases hfa : f a with
    | error e => rw [hfa] at h; cases h
    | ok b =>
      rw [hfa] at h
      cases hrest : mapExcept f rest with
      | error e => rw [hrest] at h; cases h
      | ok bs =>
        rw [hrest] at h
        simp only [Except.ok.injEq] at h
        subst h
        intro y hy
        rcases List.mem_cons.mp hy with rfl | hy'
        · exact ⟨a, by simp, hfa⟩
        · obtain ⟨x, hx, hfx⟩ := mapExcept_ok_mem hrest y hy'
          exact ⟨x, by simp [hx], hfx⟩

/-- A built layout has a non-empty field list of positive lengths. -/
theorem mkStruct_ok {blk : List Char × List Char × List Char}
    {sd : StructDef} (h : mkStruct blk = .ok sd) :
    sd.fields ≠ [] ∧ ∀ p ∈ sd.fields, 0 < p.2 := by
  unfold mkStruct at h
  cases hck : checkFields (scanByteDecls blk.2.1.length none blk.2.1) with
  | error e => simp only [hck] at h; exact Except.noConfusion h
  | ok fields =>
    simp only [hck] at h
    by_cases hf : fields = []
    · rw [if_pos hf] at h; cases h
    · rw [if_neg hf] at h
      simp only [Except.ok.injEq] at h
      obtain ⟨_, hpos⟩ := checkFields_ok hck
      subst h
      exact ⟨hf, hpos⟩

/-- C9: every layout returned by a successful parse has a non-empty
field list whose declared lengths are all positive; a layout with zero
fields, or with a declared field length that is not positive, makes the
parse fail instead of returning (shown at concrete configs; the pattern
only admits digit strings, so zero is the only non-positive length a
declaration can carry). -/
theorem C9_layout_invariant :
    (∀ (text : List Char) (structs : List StructDef),
        parse_structs_config text = .ok structs →
        ∀ sd ∈ structs, sd.fields ≠ [] ∧ ∀ p ∈ sd.fields, 0 < p.2)
    ∧ isErr (parse_structs_config ("struct A \x7b \x7d".toList)) = true
    ∧ isErr (parse_structs_config
        ("struct A \x7b BYTE F[0]; \x7d".toList)) = true := by
  refine ⟨fun text structs h sd hsd => ?_, by rfl, by rfl⟩
  unfold parse_structs_config at h
  generalize (strip_block_and_line_comments text) = cleaned at h
  unfold parseStructsCleaned at h
  cases hme : mapExcept mkStruct (scanStructBlocks cleaned.length cleaned) with
  | error e => simp only [hme] at h; exact Except.noConfusion h
  | ok structs0 =>
    simp only [hme] at h
    by_cases hemp : structs0.isEmpty
    · rw [if_pos hemp] at h
      cases han : searchAnonBlock cleaned.length cleaned with
      | none => simp only [han] at h; exact Except.noConfusion h
      | some be =>
        simp only [han] at h
        cases hck : checkFields (scanByteDecls be.1.length none be.1) with
        | error e => simp only [hck] at h; exact Except.noConfusion h
        | ok fields =>
          simp only [hck] at h
          by_cases hf : fields = []
          · rw [if_pos hf] at h; cases h
          · rw [if_neg hf] at h
            simp only [Except.ok.injEq] at h
            subst h
            obtain ⟨_, hpos⟩ := checkFields_ok hck
            rcases List.mem_singleton.mp hsd with rfl
            exact ⟨hf, hpos⟩
    · rw [if_neg hemp] at h
      simp only [Except.ok.injEq] at h
      subst h
      obtain ⟨blk, _, hblk⟩ := mapExcept_ok_mem hme sd hsd
      exact mkStruct_ok hblk

/-- Witness for C9 at a concrete well-formed config. -/
theorem C9_layout_invariant_witness :
    (⟨"A", [("F", 2)], ["txt"]⟩ : StructDef).fields ≠ [] ∧
      ∀ p ∈ (⟨"A", [("F", 2)], ["txt"]⟩ : StructDef).fields, 0 < p.2 :=
  C9_layout_invariant.1 ("struct A \x7b BYTE F[2]; \x7d txt;".toList)
    [⟨"A", [("F", 2)], ["txt"]⟩] (by rfl) _ (by simp)

/-! ## Layout selector (cli.py, choose_struct) -/

/-- os.path.basename on a POSIX path: the part after the last slash. -/
def basenameChars (p : List Char) : List Char :=
  (p.reverse.takeWhile (fun c => !(c = '/'))).reverse

/-- The extension part of os.path.splitext on a bare file name: from the
last dot on, provided some earlier character of the name is not a dot. -/
def splitextExt (base : List Char) : List Char :=
  match base.reverse.dropWhile (fun c => !(c = '.')) with
  | [] => []
  | _ :: beforeRev =>
    if beforeRev.any (fun c => !(c = '.')) then
      '.' :: (base.reverse.takeWhile (fun c => !(c = '.'))).reverse
    else []

/-- The normalized extension choose_struct derives from the input path:
splitext of the basename, lowercased, leading dots stripped. -/
def extOfPath (p : List Char) : List Char :=
  ((splitextExt (basenameChars p)).map pyLower).dropWhile (fun c => c = '.')

/-- The automatic branch of cli.choose_struct, keyed on the normalized
extension: no extension accepts a sole layout only; otherwise a unique
extension match wins, zero matches fall back to a sole layout without
extension mappings, and several matches are an error. -/
def chooseAuto (structs : List StructDef) (ext : List Char) :
    Except String StructDef :=
  if ext = [] then
    match structs with
    | [s] => .ok s
    | _ => .error "input file has no extension"
  else
    match structs.filter (fun sd => sd.exts.contains ext.asString) with
    | [sd] => .ok sd
    | [] =>
      match structs.filter (fun sd => sd.exts.isEmpty) with
      | [sd] => .ok sd
      | _ => .error "no struct matches the extension"
    | _ :: _ :: _ => .error "multiple structs match the extension"

/-- cli.choose_struct: a truthy explicit name is looked up exactly by
name; otherwise the extension of the input path decides. -/
def choose_struct (structs : List StructDef) (want : Option String)
    (path : List Char) : Except String StructDef :=
  match want with
  | some w =>
    if w = "" then chooseAuto structs (extOfPath path)
    else
      match structs.find? (fun s => s.name == w) with
      | some s => .ok s
      | none => .error "requested struct not found"
  | none => chooseAuto structs (extOfPath path)

/-- C5: layout selection is a function of the layout list, the optional
explicit name and the input file name.  An explicit name selects a
layout of exactly that name and fails when no layout carries it; the
automatic branch is case-insensitive in the file name (upper and lower
spellings of the same name select alike); a unique extension match is
returned; zero matches fall back to the unique layout without extension
mappings when it exists; several matches are an error. -/
theorem C5_selectLayout :
    (∀ (structs : List StructDef) (w : String) (path : List Char)
        (sd : StructDef), ¬ w = "" →
        choose_struct structs (some w) path = .ok sd →
        sd ∈ structs ∧ sd.name = w)
    ∧ (∀ (structs : List StructDef) (w : String) (path : List Char),
        ¬ w = "" → (∀ sd ∈ structs, ¬ sd.name = w) →
        isErr (choose_struct structs (some w) path) = true)
    ∧ (∀ structs : List StructDef,
        choose_struct structs none ("FILE.TXT".toList) =
          choose_struct structs none ("file.txt".toList))
    ∧ (∀ (structs : List StructDef) (path : List Char) (sd : StructDef),
        ¬ extOfPath path = [] →
        structs.filter
            (fun s => s.exts.contains (extOfPath path).asString) = [sd] →
        choose_struct structs none path = .ok sd)
    ∧ (∀ (structs : List StructDef) (path : List Char) (sd : StructDef),
        ¬ extOfPath path = [] →
        structs.filter
            (fun s => s.exts.contains (extOfPath path).asString) = [] →
        structs.filter (fun s => s.exts.isEmpty) = [sd] →
        choose_struct structs none path = .ok sd)
    ∧ (∀ (structs : List StructDef) (path : List Char) (s1 s2 : StructDef)
        (rest : List StructDef),
        structs.filter
            (fun s => s.exts.contains (extOfPath path).asString) =
          s1 :: s2 :: rest →
        isErr (choose_struct structs none path) = true) := by
  refine ⟨fun structs w path sd hw h => ?_,
    fun structs w path hw hnone => ?_,
    fun structs => ?_,
    fun structs path sd hne hfilt => ?_,
    fun structs path sd hne hfilt hback => ?_,
    fun structs path s1 s2 rest hfilt => ?_⟩
  · simp only [choose_struct, if_neg hw] at h
    cases hf : structs.find? (fun s => s.name == w) with
    | none => simp only [hf] at h; exact Except.noConfusion h
    | some s =>
      simp only [hf, Except.ok.injEq] at h
      subst h
      refine ⟨List.mem_of_find?_eq_some hf, ?_⟩
      have := List.find?_some hf
      simpa using this
  · simp only [choose_struct, if_neg hw]
    have hf : structs.find? (fun s => s.name == w) = none :=
      List.find?_eq_none.mpr fun x hx => by
        simpa using hnone x hx
    simp [hf, isErr]
  · have hext : extOfPath ("FILE.TXT".toList) = extOfPath ("file.txt".toList) :=
      by decide
    simp only [choose_struct, hext]
  · simp only [choose_struct, chooseAuto, if_neg hne, hfilt]
  · simp only [choose_struct, chooseAuto, if_neg hne, hfilt, hback]
  · have hlen : 2 ≤ structs.length := by
      have hle := List.length_filter_le
        (fun s => s.exts.contains (extOfPath path).asString) structs
      rw [hfilt] at hle
      simp only [List.length_cons] at hle
      omega
    simp only [choose_struct, chooseAuto]
    by_cases hne : extOfPath path = []
    · rw [if_pos hne]
      match structs, hlen with
      | a :: b :: r, _ => rfl
    · rw [if_neg hne, hfilt]
      rfl

/-- Witness for C5 at concrete layout lists and paths. -/
theorem C5_selectLayout_witness :
    ((⟨"SB", [("G", 2)], []⟩ : StructDef) ∈
        [(⟨"SA", [("F", 1)], ["txt"]⟩ : StructDef), ⟨"SB", [("G", 2)], []⟩]
      ∧ (⟨"SB", [("G", 2)], []⟩ : StructDef).name = "SB")
    ∧ isErr (choose_struct [⟨"SA", [("F", 1)], ["txt"]⟩] (some "ZZ")
        ("in.bin".toList)) = true
    ∧ choose_struct [⟨"SA", [("F", 1)], ["txt"]⟩, ⟨"SB", [("G", 2)], []⟩]
        none ("a.txt".toList) = .ok ⟨"SA", [("F", 1)], ["txt"]⟩
    ∧ choose_struct [⟨"SA", [("F", 1)], ["txt"]⟩, ⟨"SB", [("G", 2)], []⟩]
        none ("a.csv".toList) = .ok ⟨"SB", [("G", 2)], []⟩
    ∧ isErr (choose_struct
        [⟨"SA", [("F", 1)], ["txt"]⟩, ⟨"SC", [("H", 3)], ["txt"]⟩]
        none ("a.txt".toList)) = true :=
  ⟨C5_selectLayout.1 [⟨"SA", [("F", 1)], ["txt"]⟩, ⟨"SB", [("G", 2)], []⟩]
      "SB" ("in.bin".toList) ⟨"SB", [("G", 2)], []⟩ (by decide) (by rfl),
    C5_selectLayout.2.1 [⟨"SA", [("F", 1)], ["txt"]⟩] "ZZ" ("in.bin".toList)
      (by decide) (by decide),
    C5_selectLayout.2.2.2.1 [⟨"SA", [("F", 1)], ["txt"]⟩, ⟨"SB", [("G", 2)], []⟩]
      ("a.txt".toList) ⟨"SA", [("F", 1)], ["txt"]⟩ (by decide) (by decide),
    C5_selectLayout.2.2.2.2.1
      [⟨"SA", [("F", 1)], ["txt"]⟩, ⟨"SB", [("G", 2)], []⟩]
      ("a.csv".toList) ⟨"SB", [("G", 2)], []⟩ (by decide) (by decide)
      (by decide),
    C5_selectLayout.2.2.2.2.2
      [⟨"SA", [("F", 1)], ["txt"]⟩, ⟨"SC", [("H", 3)], ["txt"]⟩]
      ("a.txt".toList) ⟨"SA", [("F", 1)], ["txt"]⟩ ⟨"SC", [("H", 3)], ["txt"]⟩
      [] (by decide)⟩

/-! ## Record transcoder (cli.py, the while loop of main)

The loop reads a fixed-size field block, validates the input terminator
that follows it, slices the block into fields, renders each field, and
writes the separator-joined fields with the output terminator.  The exit
code field of the outcome is 0 for a normal run, 2 for an abort (the
strict-mode exit and the exception path around the loop) and 1 for the
empty-input exit before the loop. -/

structure RunOutcome where
  output : List Nat
  processed : Nat
  warnings : Nat
  exitCode : Nat
  deriving DecidableEq, Repr

/-- The field slices of one block, walking the declared lengths. -/
def sliceFields : List (String × Nat) → List Nat → List (List Nat)
  | [], _ => []
  | (_, ln) :: fs, block => block.take ln :: sliceFields fs (block.drop ln)

/-- Render one block: slice, escape every slice, join with the
separator.  An escape failure propagates as the exception the loop
turns into an abort. -/
def renderLine (fields : List (String × Nat)) (sep : List Nat)
    (mode pfx : String) (block : List Nat) : Except String (List Nat) :=
  match mapExcept (fun seg => escape_bytes seg mode pfx)
      (sliceFields fields block) with
  | .error e => .error e
  | .ok outs => .ok (joinSep sep outs)

/-- The value renderLine yields when no escape fails. -/
def lineValue (fields : List (String × Nat)) (sep : List Nat)
    (mode pfx : String) (block : List Nat) : List Nat :=
  joinSep sep ((sliceFields fields block).map
    (fun seg => escapeValue seg mode pfx))

/-- The terminator validation after one block: nothing to check for an
empty configured terminator; a short read warns and stands in for the
expected bytes in lenient mode and aborts in strict mode; a full-length
mismatch warns in lenient mode and aborts in strict mode.  Returns the
warning increment and the input after the consumed terminator, or
nothing on abort. -/
def term_check (in_term : List Nat) (lenient : Bool) (afterBlock : List Nat) :
    Option (Nat × List Nat) :=
  if in_term.length = 0 then some (0, afterBlock)
  else
    let tail := afterBlock.take in_term.length
    if tail.length < in_term.length then
      if lenient then some (1, afterBlock.drop in_term.length) else none
    else if tail = in_term then some (0, afterBlock.drop in_term.length)
    else if lenient then some (1, afterBlock.drop in_term.length) else none

theorem term_check_le {in_term : List Nat} {lenient : Bool}
    {ab rest : List Nat} {w : Nat}
    (h : term_check in_term lenient ab = some (w, rest)) :
    rest.length ≤ ab.length := by
  simp only [term_check] at h
  by_cases h0 : in_term.length = 0
  · rw [if_pos h0] at h; cases h; exact le_rfl
  · rw [if_neg h0] at h
    by_cases hs : (ab.take in_term.length).length < in_term.length
    · rw [if_pos hs] at h
      cases lenient with
      | false => exact Option.noConfusion h
      | true => cases h; simp
    · rw [if_neg hs] at h
      by_cases heq : ab.take in_term.length = in_term
      · rw [if_pos heq] at h; cases h; simp
      · rw [if_neg heq] at h
        cases lenient with
        | false => exact Option.noConfusion h
        | true => cases h; simp

/-- Whether the configured row limit stops the loop after this record. -/
def limitHit : Option Nat → Nat → Bool
  | none, _ => false
  | some l, p => l ≤ p

/-- The while loop of cli.main: read a block (clean end on no bytes, a
counted warning and a normal stop on a short block), validate the
terminator, render and write one output record, stop when the row limit
is reached. -/
def transcodeLoop (fields : List (String × Nat)) (F : Nat)
    (in_term out_term sep : List Nat) (mode pfx : String) (lenient : Bool)
    (limit : Option Nat) (input : List Nat) (processed warnings : Nat)
    (outAcc : List Nat) : RunOutcome :=
  if h1 : input.take F = [] then ⟨outAcc, processed, warnings, 0⟩
  else if h2 : (input.take F).length < F then
    ⟨outAcc, processed, warnings + 1, 0⟩
  else
    match htc : term_check in_term lenient (input.drop F) with
    | none => ⟨outAcc, processed, warnings, 2⟩
    | some (w, rest) =>
      match renderLine fields sep mode pfx (input.take F) with
      | .error _ => ⟨outAcc, processed, warnings + w, 2⟩
      | .ok line =>
        if limitHit limit (processed + 1) then
          ⟨outAcc ++ line ++ out_term, processed + 1, warnings + w, 0⟩
        else
          transcodeLoop fields F in_term out_term sep mode pfx lenient limit
            rest (processed + 1) (warnings + w)
            (outAcc ++ line ++ out_term)
termination_by input.length
decreasing_by
  have hne : ¬(F = 0 ∨ input = []) := by
    intro hor
    apply h1
    rcases hor with hF | hin
    · simp [hF]
    · simp [hin]
  push_neg at hne
  have hlen : 0 < input.length := by
    cases input with
    | nil => exact absurd rfl hne.2
    | cons a l => simp
  have hr := term_check_le htc
  simp only [List.length_drop] at hr
  omega

/-- The sum of the declared field lengths. -/
def totalFieldLen (fields : List (String × Nat)) : Nat :=
  (fields.map (fun f => f.2)).sum

/-- cli.main around the loop: reject a zero total field length and an
empty separator (exit 2) and an empty input (exit 1), turn a zero row
limit into no limit, then run the loop. -/
def transcode (fields : List (String × Nat)) (in_term out_term sep : List Nat)
    (mode pfx : String) (lenient : Bool) (max_rows : Nat) (input : List Nat) :
    RunOutcome :=
  if totalFieldLen fields = 0 then ⟨[], 0, 0, 2⟩
  else if sep = [] then ⟨[], 0, 0, 2⟩
  else if input = [] then ⟨[], 0, 0, 1⟩
  else
    transcodeLoop fields (totalFieldLen fields) in_term out_term sep mode pfx
      lenient (if 0 < max_rows then some max_rows else none) input 0 0 []

/-- The raw bytes of one input record: field block then terminator. -/
def recordBytes (r : List Nat × List Nat) : List Nat := r.1 ++ r.2

/-- The raw bytes of a sequence of input records. -/
def joinRecords (records : List (List Nat × List Nat)) : List Nat :=
  (records.map recordBytes).flatten

/-- The output record written for one input record: rendered fields and
the configured output terminator, whatever terminator was read. -/
def recordLine (fields : List (String × Nat)) (sep out_term : List Nat)
    (mode pfx : String) (r : List Nat × List Nat) : List Nat :=
  lineValue fields sep mode pfx r.1 ++ out_term

/-- The output written for a sequence of input records. -/
def linesOf (fields : List (String × Nat)) (sep out_term : List Nat)
    (mode pfx : String) (records : List (List Nat × List Nat)) : List Nat :=
  (records.map (recordLine fields sep out_term mode pfx)).flatten

/-- How many records of the list carry a mismatched terminator. -/
def countMismatch (in_term : List Nat)
    (records : List (List Nat × List Nat)) : Nat :=
  records.countP (fun r => decide (¬ r.2 = in_term))

/-- A well-placed matching terminator passes the check silently. -/
theorem term_check_match (in_term : List Nat) (lenient : Bool)
    (x : List Nat) :
    term_check in_term lenient (in_term ++ x) = some (0, x) := by
  simp only [term_check]
  by_cases h0 : in_term.length = 0
  · rw [if_pos h0]
    have hnil : in_term = [] := List.length_eq_zero.mp h0
    simp [hnil]
  · rw [if_neg h0, List.take_left, List.drop_left]
    rw [if_neg (lt_irrefl in_term.length), if_pos rfl]

/-- A full-length mismatched terminator warns in lenient mode and aborts
in strict mode. -/
theorem term_check_mismatch {in_term t : List Nat} (x : List Nat)
    (hlen : t.length = in_term.length) (hne : t ≠ in_term) :
    term_check in_term true (t ++ x) = some (1, x)
    ∧ term_check in_term false (t ++ x) = none := by
  have h0 : ¬ in_term.length = 0 := by
    intro h0
    exact hne (by
      have h1 : t = [] := List.length_eq_zero.mp (hlen.trans h0)
      have h2 : in_term = [] := List.length_eq_zero.mp h0
      rw [h1, h2])
  have ht : (t ++ x).take in_term.length = t := List.take_left' hlen
  have hd : (t ++ x).drop in_term.length = x := List.drop_left' hlen
  constructor <;>
    · simp only [term_check]
      rw [if_neg h0, ht, hd, if_neg (by omega), if_neg hne]
      rfl

/-- Under a sane escape configuration mapExcept renders every slice. -/
theorem mapExcept_congr_ok {f : α → Except ε β} {g : α → β} :
    ∀ {l : List α}, (∀ x ∈ l, f x = .ok (g x)) →
      mapExcept f l = .ok (l.map g)
  | [], _ => rfl
  | a :: rest, h => by
    simp only [mapExcept, h a (List.mem_cons_self a rest),
      mapExcept_congr_ok (fun x hx => h x (List.mem_cons_of_mem a hx)),
      List.map]

/-- Under a sane escape configuration renderLine never fails. -/
theorem renderLine_ok (fields : List (String × Nat)) (sep : List Nat)
    (mode pfx : String) (block : List Nat) (h : ModeOk mode pfx) :
    renderLine fields sep mode pfx block =
      .ok (lineValue fields sep mode pfx block) := by
  unfold renderLine lineValue
  rw [mapExcept_congr_ok (fun seg _ => escape_bytes_ok seg mode pfx h)]

/-- The loop stops silently at the end of the input. -/
theorem transcodeLoop_end (fields : List (String × Nat)) (F : Nat)
    (itm otm sep : List Nat) (mode pfx : String) (lenient : Bool)
    (limit : Option Nat) (p w : Nat) (acc : List Nat) :
    transcodeLoop fields F itm otm sep mode pfx lenient limit [] p w acc =
      ⟨acc, p, w, 0⟩ := by
  rw [transcodeLoop.eq_def]
  simp

/-- A non-empty final fragment shorter than one block warns once and
stops the loop normally, writing nothing for it. -/
theorem transcodeLoop_shortTail (fields : List (String × Nat)) (F : Nat)
    (itm otm sep : List Nat) (mode pfx : String) (lenient : Bool)
    (limit : Option Nat) (input : List Nat) (p w : Nat) (acc : List Nat)
    (hne : input ≠ []) (hlt : input.length < F) :
    transcodeLoop fields F itm otm sep mode pfx lenient limit input p w acc =
      ⟨acc, p, w + 1, 0⟩ := by
  have h1 : input.take F = input := List.take_of_length_le (le_of_lt hlt)
  rw [transcodeLoop.eq_def]
  simp only [h1]
  rw [dif_neg hne, dif_pos hlt]

/-- One full record at the head of the input, whose terminator check
passes with w0 warnings, is consumed and written as one output record
when no row limit is set. -/
theorem transcodeLoop_record_step (fields : List (String × Nat)) (F : Nat)
    (itm otm sep : List Nat) (mode pfx : String) (lenient : Bool)
    (b t X acc : List Nat) (w0 p w : Nat)
    (hF : 0 < F) (hb : b.length = F)
    (htc : term_check itm lenient (t ++ X) = some (w0, X))
    (hmode : ModeOk mode pfx) :
    transcodeLoop fields F itm otm sep mode pfx lenient none
        (b ++ (t ++ X)) p w acc =
      transcodeLoop fields F itm otm sep mode pfx lenient none X (p + 1)
        (w + w0) (acc ++ lineValue fields sep mode pfx b ++ otm) := by
  have h1 : (b ++ (t ++ X)).take F = b := List.take_left' hb
  have h2 : (b ++ (t ++ X)).drop F = t ++ X := List.drop_left' hb
  have hbne : b ≠ [] := by
    intro hb0; rw [hb0] at hb; simp at hb; omega
  conv_lhs => rw [transcodeLoop.eq_def]
  simp only [h1, h2]
  rw [dif_neg hbne, dif_neg (show ¬ b.length < F by omega)]
  split
  · next heq => rw [h2, htc] at heq; exact Option.noConfusion heq
  · next w' rest' heq =>
    rw [h2, htc] at heq
    injection heq with heq'
    injection heq' with hw hr
    subst hw hr
    rw [renderLine_ok fields sep mode pfx b hmode]
    simp [limitHit]

/-- A full record whose terminator check aborts stops the loop with exit
code 2, before writing anything for it. -/
theorem transcodeLoop_abort_step (fields : List (String × Nat)) (F : Nat)
    (itm otm sep : List Nat) (mode pfx : String) (lenient : Bool)
    (limit : Option Nat) (b t X acc : List Nat) (p w : Nat)
    (hF : 0 < F) (hb : b.length = F)
    (htc : term_check itm lenient (t ++ X) = none) :
    transcodeLoop fields F itm otm sep mode pfx lenient limit
        (b ++ (t ++ X)) p w acc = ⟨acc, p, w, 2⟩ := by
  have h1 : (b ++ (t ++ X)).take F = b := List.take_left' hb
  have h2 : (b ++ (t ++ X)).drop F = t ++ X := List.drop_left' hb
  have hbne : b ≠ [] := by
    intro hb0; rw [hb0] at hb; simp at hb; omega
  conv_lhs => rw [transcodeLoop.eq_def]
  simp only [h1, h2]
  rw [dif_neg hbne, dif_neg (show ¬ b.length < F by omega)]
  split
  · rfl
  · next w' rest' heq => rw [h2, htc] at heq; exact Option.noConfusion heq

/-- A run of records with valid terminators is consumed one output
record each, with no warning, in both modes. -/
theorem transcodeLoop_all_valid (fields : List (String × Nat)) (F : Nat)
    (itm otm sep : List Nat) (mode pfx : String) (lenient : Bool)
    (hF : 0 < F) (hmode : ModeOk mode pfx)
    (records : List (List Nat × List Nat)) :
    ∀ (rest : List Nat) (p w : Nat) (acc : List Nat),
      (∀ r ∈ records, r.1.length = F ∧ r.2 = itm) →
      transcodeLoop fields F itm otm sep mode pfx lenient none
          (joinRecords records ++ rest) p w acc =
        transcodeLoop fields F itm otm sep mode pfx lenient none rest
          (p + records.length) w
          (acc ++ linesOf fields sep otm mode pfx records) := by
  induction records with
  | nil => intro rest p w acc _; simp [joinRecords, linesOf]
  | cons r rs ih =>
    obtain ⟨b, t⟩ := r
    intro rest p w acc hrec
    have hb : b.length = F := (hrec (b, t) (by simp)).1
    have ht : t = itm := (hrec (b, t) (by simp)).2
    subst ht
    have hjoin : joinRecords ((b, t) :: rs) ++ rest =
        b ++ (t ++ (joinRecords rs ++ rest)) := by
      simp [joinRecords, recordBytes, List.append_assoc]
    rw [hjoin, transcodeLoop_record_step fields F t otm sep mode pfx lenient
      b t (joinRecords rs ++ rest) acc 0 p w hF hb
      (term_check_match t lenient _) hmode]
    rw [ih rest (p + 1) (w + 0) _
      (fun x hx => hrec x (List.mem_cons_of_mem _ hx))]
    simp only [linesOf, List.map_cons, List.flatten_cons, recordLine,
      List.length_cons, Nat.add_zero, List.append_assoc]
    rw [show p + 1 + rs.length = p + (rs.length + 1) from by omega]

/-- In lenient mode a run of full records is consumed one output record
each, counting one warning per mismatched terminator. -/
theorem transcodeLoop_lenient_all (fields : List (String × Nat)) (F : Nat)
    (itm otm sep : List Nat) (mode pfx : String)
    (hF : 0 < F) (hmode : ModeOk mode pfx)
    (records : List (List Nat × List Nat)) :
    ∀ (rest : List Nat) (p w : Nat) (acc : List Nat),
      (∀ r ∈ records, r.1.length = F ∧ r.2.length = itm.length) →
      transcodeLoop fields F itm otm sep mode pfx true none
          (joinRecords records ++ rest) p w acc =
        transcodeLoop fields F itm otm sep mode pfx true none rest
          (p + records.length) (w + countMismatch itm records)
          (acc ++ linesOf fields sep otm mode pfx records) := by
  induction records with
  | nil => intro rest p w acc _; simp [joinRecords, linesOf, countMismatch]
  | cons r rs ih =>
    obtain ⟨b, t⟩ := r
    intro rest p w acc hrec
    have hb : b.length = F := (hrec (b, t) (by simp)).1
    have ht : t.length = itm.length := (hrec (b, t) (by simp)).2
    have hjoin : joinRecords ((b, t) :: rs) ++ rest =
        b ++ (t ++ (joinRecords rs ++ rest)) := by
      simp [joinRecords, recordBytes, List.append_assoc]
    rw [hjoin]
    by_cases hmm : t = itm
    · subst hmm
      rw [transcodeLoop_record_step fields F t otm sep mode pfx true
        b t (joinRecords rs ++ rest) acc 0 p w hF hb
        (term_check_match t true _) hmode]
      rw [ih rest (p + 1) (w + 0) _
        (fun x hx => hrec x (List.mem_cons_of_mem _ hx))]
      simp only [linesOf, List.map_cons, List.flatten_cons, recordLine,
        List.length_cons, Nat.add_zero, List.append_assoc,
        countMismatch, List.countP_cons]
      rw [show p + 1 + rs.length = p + (rs.length + 1) from by omega]
      simp
    · rw [transcodeLoop_record_step fields F itm otm sep mode pfx true
        b t (joinRecords rs ++ rest) acc 1 p w hF hb
        ((term_check_mismatch _ ht hmm).1) hmode]
      rw [ih rest (p + 1) (w + 1) _
        (fun x hx => hrec x (List.mem_cons_of_mem _ hx))]
      simp only [linesOf, List.map_cons, List.flatten_cons, recordLine,
        List.length_cons, List.append_assoc, countMismatch,
        List.countP_cons]
      rw [show p + 1 + rs.length = p + (rs.length + 1) from by omega,
        show (decide (¬ t = itm)) = true from by simp [hmm]]
      rw [show w + 1 + List.countP (fun r => decide (¬ r.2 = itm)) rs =
        w + (List.countP (fun r => decide (¬ r.2 = itm)) rs + 1) from by omega]
      simp

/-- In strict mode the loop runs through valid records and aborts at the
first mismatched terminator, with the earlier records already written
and counted and nothing written for the offending record. -/
theorem transcodeLoop_strict_abort (fields : List (String × Nat)) (F : Nat)
    (itm otm sep : List Nat) (mode pfx : String)
    (hF : 0 < F) (hmode : ModeOk mode pfx)
    (good : List (List Nat × List Nat)) (bad : List Nat × List Nat)
    (rs : List (List Nat × List Nat)) (p w : Nat) (acc : List Nat)
    (hgood : ∀ r ∈ good, r.1.length = F ∧ r.2 = itm)
    (hb : bad.1.length = F) (ht : bad.2.length = itm.length)
    (hne : bad.2 ≠ itm) :
    transcodeLoop fields F itm otm sep mode pfx false none
        (joinRecords (good ++ bad :: rs)) p w acc =
      ⟨acc ++ linesOf fields sep otm mode pfx good, p + good.length, w, 2⟩ := by
  have hsplit : joinRecords (good ++ bad :: rs) =
      joinRecords good ++ (bad.1 ++ (bad.2 ++ joinRecords rs)) := by
    simp [joinRecords, recordBytes, List.append_assoc]
  rw [hsplit, transcodeLoop_all_valid fields F itm otm sep mode pfx false hF
    hmode good _ p w acc hgood]
  exact transcodeLoop_abort_step fields F itm otm sep mode pfx false none
    bad.1 bad.2 (joinRecords rs) _ _ _ hF hb
    ((term_check_mismatch _ ht hne).2)

/-- A non-empty record list with non-empty blocks has non-empty bytes. -/
theorem joinRecords_ne_nil {records : List (List Nat × List Nat)}
    (hne : records ≠ []) (hblocks : ∀ r ∈ records, r.1 ≠ []) :
    joinRecords records ≠ [] := by
  cases records with
  | nil => exact absurd rfl hne
  | cons r rs =>
    have hr : r.1 ≠ [] := hblocks r (by simp)
    cases hb : r.1 with
    | nil => exact absurd hb hr
    | cons x b' =>
      simp [joinRecords, recordBytes, hb]

/-- With the guards passed, transcode is the loop from a fresh state. -/
theorem transcode_loop_eq (fields : List (String × Nat))
    (itm otm sep : List Nat) (mode pfx : String) (lenient : Bool)
    (input : List Nat) (hF : ¬ totalFieldLen fields = 0) (hsep : sep ≠ [])
    (hin : input ≠ []) :
    transcode fields itm otm sep mode pfx lenient 0 input =
      transcodeLoop fields (totalFieldLen fields) itm otm sep mode pfx
        lenient none input 0 0 [] := by
  unfold transcode
  rw [if_neg hF, if_neg hsep, if_neg hin]
  rfl

/-- A whole input of records with valid terminators transcodes to one
output record each, no warning, exit code 0, in both modes. -/
theorem transcode_all_valid (fields : List (String × Nat))
    (itm otm sep : List Nat) (mode pfx : String) (lenient : Bool)
    (records : List (List Nat × List Nat))
    (hmode : ModeOk mode pfx) (hsep : sep ≠ [])
    (hF : 0 < totalFieldLen fields) (hne : records ≠ [])
    (hrec : ∀ r ∈ records,
      r.1.length = totalFieldLen fields ∧ r.2 = itm) :
    transcode fields itm otm sep mode pfx lenient 0 (joinRecords records) =
      ⟨linesOf fields sep otm mode pfx records, records.length, 0, 0⟩ := by
  have hblocks : ∀ r ∈ records, r.1 ≠ [] := by
    intro r hr h0
    have := (hrec r hr).1
    rw [h0] at this
    simp at this
    omega
  rw [transcode_loop_eq fields itm otm sep mode pfx lenient _ (by omega) hsep
    (joinRecords_ne_nil hne hblocks)]
  have hmain := transcodeLoop_all_valid fields (totalFieldLen fields) itm otm
    sep mode pfx lenient hF hmode records [] 0 0 [] hrec
  rw [List.append_nil] at hmain
  rw [hmain, transcodeLoop_end]
  simp

/-- C3: for a non-empty input of whole records whose every terminator
slot equals the configured input terminator, with no row limit,
transcode emits one output record per input record with zero warnings
and a clean exit, in strict and lenient mode alike, under a sane escape
configuration and a non-empty separator. -/
theorem C3_valid_records_all_emitted (fields : List (String × Nat))
    (itm otm sep : List Nat) (mode pfx : String) (lenient : Bool)
    (records : List (List Nat × List Nat))
    (hmode : ModeOk mode pfx) (hsep : sep ≠ [])
    (hF : 0 < totalFieldLen fields) (hne : records ≠ [])
    (hrec : ∀ r ∈ records,
      r.1.length = totalFieldLen fields ∧ r.2 = itm) :
    transcode fields itm otm sep mode pfx lenient 0 (joinRecords records) =
      ⟨linesOf fields sep otm mode pfx records, records.length, 0, 0⟩ :=
  transcode_all_valid fields itm otm sep mode pfx lenient records hmode hsep
    hF hne hrec

/-- Witness for C3 at one concrete two-record input. -/
theorem C3_valid_records_all_emitted_witness :
    transcode [("A", 2)] [10] [10] [9] "none" "" false 0
        (joinRecords [([1, 2], [10]), ([3, 4], [10])]) =
      ⟨linesOf [("A", 2)] [9] [10] "none" ""
        [([1, 2], [10]), ([3, 4], [10])], 2, 0, 0⟩ :=
  C3_valid_records_all_emitted [("A", 2)] [10] [10] [9] "none" "" false
    [([1, 2], [10]), ([3, 4], [10])] (Or.inl rfl) (by decide) (by decide)
    (by decide) (by decide)

/-- C1: on the layout A of five bytes and B of three bytes, input and
output terminator CRLF, separator tab, no escaping, the two-record input
transcodes to exactly the tab-separated CRLF-terminated text, two
records emitted, zero warnings, clean exit. -/
theorem C1_concrete_two_records :
    transcode [("A", 5), ("B", 3)] [13, 10] [13, 10] [9] "none" "" false 0
        (strBytes "AAAAABBB\r\nCCCCCDDD\r\n") =
      ⟨strBytes "AAAAA\tBBB\r\nCCCCC\tDDD\r\n", 2, 0, 0⟩ := by
  have hinput : strBytes "AAAAABBB\r\nCCCCCDDD\r\n" =
      joinRecords [(strBytes "AAAAABBB", [13, 10]),
        (strBytes "CCCCCDDD", [13, 10])] := by decide
  rw [hinput, transcode_all_valid [("A", 5), ("B", 3)] [13, 10] [13, 10] [9]
    "none" "" false _ (Or.inl rfl) (by decide) (by decide) (by decide)
    (by decide)]
  decide

/-- C2: on an input of whole records with exactly one mismatched
terminator, strict mode writes and counts exactly the records before the
offender and aborts with exit code 2 before emitting it or anything
later, while lenient mode emits every record, counts exactly one
warning, exits cleanly, and every emitted record ends with the
configured output terminator whatever bytes were read. -/
theorem C2_single_mismatched_terminator (fields : List (String × Nat))
    (itm otm sep : List Nat) (mode pfx : String)
    (good1 : List (List Nat × List Nat)) (bad : List Nat × List Nat)
    (good2 : List (List Nat × List Nat))
    (hmode : ModeOk mode pfx) (hsep : sep ≠ [])
    (hF : 0 < totalFieldLen fields)
    (hgood : ∀ r ∈ good1 ++ good2,
      r.1.length = totalFieldLen fields ∧ r.2 = itm)
    (hb : bad.1.length = totalFieldLen fields)
    (ht : bad.2.length = itm.length) (hne : bad.2 ≠ itm) :
    transcode fields itm otm sep mode pfx false 0
        (joinRecords (good1 ++ bad :: good2)) =
      ⟨linesOf fields sep otm mode pfx good1, good1.length, 0, 2⟩
    ∧ transcode fields itm otm sep mode pfx true 0
        (joinRecords (good1 ++ bad :: good2)) =
      ⟨linesOf fields sep otm mode pfx (good1 ++ bad :: good2),
        (good1 ++ bad :: good2).length, 1, 0⟩ := by
  have hblocks : ∀ r ∈ good1 ++ bad :: good2, r.1 ≠ [] := by
    intro r hr h0
    have hrF : r.1.length = totalFieldLen fields := by
      rcases List.mem_append.mp hr with h | h
      · exact (hgood r (List.mem_append.mpr (Or.inl h))).1
      · rcases List.mem_cons.mp h with rfl | h'
        · exact hb
        · exact (hgood r (List.mem_append.mpr (Or.inr h'))).1
    rw [h0] at hrF
    simp at hrF
    omega
  have hnil : (good1 ++ bad :: good2) ≠ [] := by simp
  have hinput := joinRecords_ne_nil hnil hblocks
  constructor
  · rw [transcode_loop_eq fields itm otm sep mode pfx false _ (by omega) hsep
      hinput]
    have := transcodeLoop_strict_abort fields (totalFieldLen fields) itm otm
      sep mode pfx hF hmode good1 bad good2 0 0 []
      (fun r hr => hgood r (List.mem_append.mpr (Or.inl hr))) hb ht hne
    rw [this]
    simp
  · rw [transcode_loop_eq fields itm otm sep mode pfx true _ (by omega) hsep
      hinput]
    have hrec : ∀ r ∈ good1 ++ bad :: good2,
        r.1.length = totalFieldLen fields ∧ r.2.length = itm.length := by
      intro r hr
      rcases List.mem_append.mp hr with h | h
      · obtain ⟨h1, h2⟩ := hgood r (List.mem_append.mpr (Or.inl h))
        exact ⟨h1, by rw [h2]⟩
      · rcases List.mem_cons.mp h with rfl | h'
        · exact ⟨hb, ht⟩
        · obtain ⟨h1, h2⟩ := hgood r (List.mem_append.mpr (Or.inr h'))
          exact ⟨h1, by rw [h2]⟩
    have hmain := transcodeLoop_lenient_all fields (totalFieldLen fields) itm
      otm sep mode pfx hF hmode (good1 ++ bad :: good2) [] 0 0 [] hrec
    rw [List.append_nil] at hmain
    rw [hmain, transcodeLoop_end]
    have hcount : countMismatch itm (good1 ++ bad :: good2) = 1 := by
      have hg1 : List.countP (fun r => decide (¬ r.2 = itm)) good1 = 0 :=
        List.countP_eq_zero.mpr fun r hr => by
          simp [(hgood r (List.mem_append.mpr (Or.inl hr))).2]
      have hg2 : List.countP (fun r => decide (¬ r.2 = itm)) good2 = 0 :=
        List.countP_eq_zero.mpr fun r hr => by
          simp [(hgood r (List.mem_append.mpr (Or.inr hr))).2]
      unfold countMismatch
      rw [List.countP_append, List.countP_cons, hg1, hg2]
      simp [hne]
    rw [hcount]
    simp

/-- Witness for C2 at one concrete three-record input with the middle
terminator wrong. -/
theorem C2_single_mismatched_terminator_witness :
    transcode [("A", 2)] [13, 10] [13, 10] [9] "none" "" false 0
        (joinRecords [([1, 2], [13, 10]), ([3, 4], [0, 0]),
          ([5, 6], [13, 10])]) =
      ⟨linesOf [("A", 2)] [9] [13, 10] "none" "" [([1, 2], [13, 10])], 1, 0, 2⟩
    ∧ transcode [("A", 2)] [13, 10] [13, 10] [9] "none" "" true 0
        (joinRecords [([1, 2], [13, 10]), ([3, 4], [0, 0]),
          ([5, 6], [13, 10])]) =
      ⟨linesOf [("A", 2)] [9] [13, 10] "none" ""
        [([1, 2], [13, 10]), ([3, 4], [0, 0]), ([5, 6], [13, 10])], 3, 1, 0⟩ :=
  C2_single_mismatched_terminator [("A", 2)] [13, 10] [13, 10] [9] "none" ""
    [([1, 2], [13, 10])] ([3, 4], [0, 0]) [([5, 6], [13, 10])] (Or.inl rfl)
    (by decide) (by decide) (by decide) (by decide) (by decide) (by decide)

/-- C4: an input of whole valid records followed by a non-empty fragment
shorter than one field block transcodes every whole record, counts one
warning for the truncated tail, writes nothing for the fragment, and
exits cleanly in strict and lenient mode alike. -/
theorem C4_truncated_tail_warns (fields : List (String × Nat))
    (itm otm sep : List Nat) (mode pfx : String) (lenient : Bool)
    (records : List (List Nat × List Nat)) (P : List Nat)
    (hmode : ModeOk mode pfx) (hsep : sep ≠ [])
    (hF : 0 < totalFieldLen fields)
    (hrec : ∀ r ∈ records,
      r.1.length = totalFieldLen fields ∧ r.2 = itm)
    (hP1 : P ≠ []) (hP2 : P.length < totalFieldLen fields) :
    transcode fields itm otm sep mode pfx lenient 0
        (joinRecords records ++ P) =
      ⟨linesOf fields sep otm mode pfx records, records.length, 1, 0⟩ := by
  have hin : joinRecords records ++ P ≠ [] := by
    intro h
    exact hP1 (List.append_eq_nil.mp h).2
  rw [transcode_loop_eq fields itm otm sep mode pfx lenient _ (by omega) hsep
    hin]
  rw [transcodeLoop_all_valid fields (totalFieldLen fields) itm otm sep mode
    pfx lenient hF hmode records P 0 0 [] hrec]
  rw [transcodeLoop_shortTail fields (totalFieldLen fields) itm otm sep mode
    pfx lenient none P (0 + records.length) 0 _ hP1 hP2]
  simp

/-- Witness for C4 at one concrete record plus a one-byte fragment. -/
theorem C4_truncated_tail_warns_witness :
    transcode [("A", 2)] [10] [10] [9] "none" "" false 0
        (joinRecords [([1, 2], [10])] ++ [7]) =
      ⟨linesOf [("A", 2)] [9] [10] "none" "" [([1, 2], [10])], 1, 1, 0⟩ :=
  C4_truncated_tail_warns [("A", 2)] [10] [10] [9] "none" "" false
    [([1, 2], [10])] [7] (Or.inl rfl) (by decide) (by decide) (by decide)
    (by decide) (by decide)

end Fixedrec

